import Mathlib

/-
Verification of the volume-processing core of src/medical/dicom_converter.py:
the Perona-Malik anisotropic diffusion solver (perona_malik_gpu), the chunked
min/max reduction (compute_chunk_minmax), and the configuration-validating
conversion driver (convert_dicom_series).

Modelling conventions:
* A numpy float32 3D array is embedded as a `Volume`: three dimensions plus a
  total value function `ℕ → ℕ → ℕ → ℝ` indexed (z, y, x); only indices inside
  the extent are meaningful.  Floating-point arithmetic is idealized as exact
  real arithmetic.
* The global HAS_CUPY flag (set at import time) is threaded as an explicit
  `hasCupy : Bool` argument.
* `cp.pad(vol, 1, mode='edge')` followed by the shifted slices is embedded by
  clamped neighbor indexing: `z - 1` on ℕ already clamps at 0, and the high
  side is clamped with `min (z + 1) (dim - 1)`, which is exactly the
  edge-replicated halo for in-extent indices.
* The double-buffered loop (write into output_gpu, then swap) applies the same
  per-voxel update `iterations` times; it is embedded with `Function.iterate`.
-/

/-- A dense 3D scalar field: the embedding of the float32 numpy volume,
indexed (z, y, x) with z the slice axis. -/
structure Volume where
  depth : ℕ
  height : ℕ
  width : ℕ
  data : ℕ → ℕ → ℕ → ℝ

/-- Per-direction diffusion coefficient of perona_malik_gpu (lines 259-274):
diffusion_type 1 is the exponential variant `exp(-(g/K)^2)`, any other value
takes the `else` branch, the rational variant `1 / (1 + (g/K)^2)`. -/
noncomputable def diffusionCoef (diffusion_type : ℕ) (K g : ℝ) : ℝ :=
  if diffusion_type = 1 then Real.exp (-((g / K) ^ 2))
  else 1 / (1 + (g / K) ^ 2)

/-- One iteration of the perona_malik_gpu loop body (lines 236-290): six
edge-replicated neighbors, per-direction gradients and coefficients,
divergence, and the explicit Euler update. -/
noncomputable def peronaMalikStep (K lambda_param : ℝ) (diffusion_type : ℕ)
    (v : Volume) : Volume :=
  { v with data := fun z y x =>
      let center := v.data z y x
      let north := v.data (z - 1) y x
      let south := v.data (min (z + 1) (v.depth - 1)) y x
      let west := v.data z (y - 1) x
      let east := v.data z (min (y + 1) (v.height - 1)) x
      let up := v.data z y (x - 1)
      let down := v.data z y (min (x + 1) (v.width - 1))
      let c_n := diffusionCoef diffusion_type K |north - center|
      let c_s := diffusionCoef diffusion_type K |south - center|
      let c_w := diffusionCoef diffusion_type K |west - center|
      let c_e := diffusionCoef diffusion_type K |east - center|
      let c_u := diffusionCoef diffusion_type K |up - center|
      let c_d := diffusionCoef diffusion_type K |down - center|
      let divergence :=
        c_n * (north - center) + c_s * (south - center) +
        c_w * (west - center) + c_e * (east - center) +
        c_u * (up - center) + c_d * (down - center)
      center + lambda_param * divergence }

/-- perona_malik_gpu (lines 211-299).  Without CuPy it returns the input volume
immediately (lines 226-228); with CuPy it applies the double-buffered update
`iterations` times. -/
noncomputable def perona_malik_gpu (hasCupy : Bool) (volume : Volume)
    (iterations : ℕ) (K lambda_param : ℝ) (diffusion_type : ℕ) : Volume :=
  if hasCupy = false then volume
  else (peronaMalikStep K lambda_param diffusion_type)^[iterations] volume

/-- Each axis rounded up to the next multiple of chunk_size
(compute_chunk_minmax lines 317-319). -/
def paddedDim (dim chunk_size : ℕ) : ℕ :=
  ((dim + chunk_size - 1) / chunk_size) * chunk_size

/-- Per-axis chunk count (lines 327-329): padded dimension divided by
chunk_size. -/
def numChunks (dim chunk_size : ℕ) : ℕ :=
  paddedDim dim chunk_size / chunk_size

/-- The zero-padded volume (lines 322-325): original values inside the extent,
fill value 0 outside.  The source allocates the padded array only when padding
is needed; when no padding is needed every block index is inside the extent,
so this total function is extensionally the array the source scans. -/
noncomputable def padData (v : Volume) : ℕ → ℕ → ℕ → ℝ :=
  fun z y x =>
    if z < v.depth ∧ y < v.height ∧ x < v.width then v.data z y x else 0

/-- Row-major (z, y, x) enumeration of the voxel indices of the cubic block of
cell (iz, iy, ix) (lines 347-355). -/
def blockIndices (chunk_size iz iy ix : ℕ) : List (ℕ × ℕ × ℕ) :=
  (List.range chunk_size).flatMap fun dz =>
    (List.range chunk_size).flatMap fun dy =>
      (List.range chunk_size).map fun dx =>
        (iz * chunk_size + dz, iy * chunk_size + dy, ix * chunk_size + dx)

/-- The voxel values of the sub-array `volume[z_start:z_end, y_start:y_end,
x_start:x_end]` scanned by np.min / np.max (line 355). -/
noncomputable def blockValues (v : Volume) (chunk_size iz iy ix : ℕ) : List ℝ :=
  (blockIndices chunk_size iz iy ix).map fun p => padData v p.1 p.2.1 p.2.2

/-- np.min of the chunk sub-array (line 357): minimum over the scanned values
(0 on an impossible empty chunk, which needs chunk_size = 0). -/
noncomputable def chunkMin (v : Volume) (chunk_size iz iy ix : ℕ) : ℝ :=
  match blockValues v chunk_size iz iy ix with
  | [] => 0
  | a :: l => l.foldl min a

/-- np.max of the chunk sub-array (line 358). -/
noncomputable def chunkMax (v : Volume) (chunk_size iz iy ix : ℕ) : ℝ :=
  match blockValues v chunk_size iz iy ix with
  | [] => 0
  | a :: l => l.foldl max a

/-- The (num_chunks_z, num_chunks_y, num_chunks_x, 2) result array of
compute_chunk_minmax, with the trailing channel axis split into the cmin and
cmax fields. -/
structure ChunkGrid where
  nz : ℕ
  ny : ℕ
  nx : ℕ
  cmin : ℕ → ℕ → ℕ → ℝ
  cmax : ℕ → ℕ → ℕ → ℝ

/-- compute_chunk_minmax (lines 302-366): pad each axis up to a multiple of
chunk_size with zeros and record per-cube extrema. -/
noncomputable def compute_chunk_minmax (volume : Volume) (chunk_size : ℕ) :
    ChunkGrid :=
  { nz := numChunks volume.depth chunk_size
    ny := numChunks volume.height chunk_size
    nx := numChunks volume.width chunk_size
    cmin := fun iz iy ix => chunkMin volume chunk_size iz iy ix
    cmax := fun iz iy ix => chunkMax volume chunk_size iz iy ix }

/-- The core outputs of one conversion run: the (possibly smoothed) volume that
is persisted, the chunk grid, and the chunk-related metadata fields written to
metadata.json (lines 464-468).  Note there is no field recording whether
smoothing was applied. -/
structure ConvertOutput where
  volume : Volume
  chunks : ChunkGrid
  chunkSize : ℕ
  numChunksX : ℕ
  numChunksY : ℕ
  numChunksZ : ℕ
  totalChunks : ℕ

/-- The computational core of convert_dicom_series (lines 369-489): chunk-size
validation first (lines 382-386), then smoothing only when requested AND CuPy
is present (lines 433-437, with K=50.0, lambda=0.1, diffusion_type=2), then
the chunk reduction and the metadata fields.  Errors are modelled with Except:
an error produces no output at all. -/
noncomputable def convert_dicom_series (hasCupy apply_smoothing : Bool)
    (volume : Volume) (smoothing_iterations chunk_size : ℕ) :
    Except String ConvertOutput :=
  if chunk_size % 16 ≠ 0 then
    Except.error "Chunk size must be a multiple of 16"
  else if chunk_size < 16 ∨ chunk_size > 256 then
    Except.error "Chunk size must be between 16 and 256"
  else
    let vol :=
      if apply_smoothing && hasCupy then
        perona_malik_gpu hasCupy volume smoothing_iterations 50 (1 / 10) 2
      else volume
    let grid := compute_chunk_minmax vol chunk_size
    Except.ok
      { volume := vol
        chunks := grid
        chunkSize := chunk_size
        numChunksX := grid.nx
        numChunksY := grid.ny
        numChunksZ := grid.nz
        totalChunks := grid.nz * grid.ny * grid.nx }

/-- Membership of a voxel in the cubic block of cell (iz, iy, ix). -/
def inBlock (chunk_size iz iy ix z y x : ℕ) : Prop :=
  iz * chunk_size ≤ z ∧ z < iz * chunk_size + chunk_size ∧
  iy * chunk_size ≤ y ∧ y < iy * chunk_size + chunk_size ∧
  ix * chunk_size ≤ x ∧ x < ix * chunk_size + chunk_size

lemma foldl_min_mem (a : ℝ) (l : List ℝ) : l.foldl min a ∈ a :: l := by
  induction l generalizing a with
  | nil => simp
  | cons b t ih =>
      have h := ih (min a b)
      rw [List.foldl_cons]
      rcases List.mem_cons.1 h with h1 | h1
      · rcases min_choice a b with hm | hm
        · rw [h1, hm]; exact List.mem_cons_self _ _
        · rw [h1, hm]; exact List.mem_cons_of_mem _ (List.mem_cons_self _ _)
      · exact List.mem_cons_of_mem _ (List.mem_cons_of_mem _ h1)

lemma foldl_min_le (a : ℝ) (l : List ℝ) : ∀ x ∈ a :: l, l.foldl min a ≤ x := by
  induction l generalizing a with
  | nil =>
      intro x hx
      rcases List.mem_cons.1 hx with h | h
      · rw [h]; simp
      · simp at h
  | cons b t ih =>
      intro x hx
      have hinit : List.foldl min (min a b) t ≤ min a b :=
        ih (min a b) (min a b) (List.mem_cons_self _ _)
      rw [List.foldl_cons]
      rcases List.mem_cons.1 hx with h | h
      · rw [h]; exact le_trans hinit (min_le_left _ _)
      · rcases List.mem_cons.1 h with h2 | h2
        · rw [h2]; exact le_trans hinit (min_le_right _ _)
        · exact ih (min a b) x (List.mem_cons_of_mem _ h2)

lemma foldl_max_mem (a : ℝ) (l : List ℝ) : l.foldl max a ∈ a :: l := by
  induction l generalizing a with
  | nil => simp
  | cons b t ih =>
      have h := ih (max a b)
      rw [List.foldl_cons]
      rcases List.mem_cons.1 h with h1 | h1
      · rcases max_choice a b with hm | hm
        · rw [h1, hm]; exact List.mem_cons_self _ _
        · rw [h1, hm]; exact List.mem_cons_of_mem _ (List.mem_cons_self _ _)
      · exact List.mem_cons_of_mem _ (List.mem_cons_of_mem _ h1)

lemma le_foldl_max (a : ℝ) (l : List ℝ) : ∀ x ∈ a :: l, x ≤ l.foldl max a := by
  induction l generalizing a with
  | nil =>
      intro x hx
      rcases List.mem_cons.1 hx with h | h
      · rw [h]; simp
      · simp at h
  | cons b t ih =>
      intro x hx
      have hinit : max a b ≤ List.foldl max (max a b) t :=
        ih (max a b) (max a b) (List.mem_cons_self _ _)
      rw [List.foldl_cons]
      rcases List.mem_cons.1 hx with h | h
      · rw [h]; exact le_trans (le_max_left _ _) hinit
      · rcases List.mem_cons.1 h with h2 | h2
        · rw [h2]; exact le_trans (le_max_right _ _) hinit
        · exact ih (max a b) x (List.mem_cons_of_mem _ h2)

lemma mem_blockIndices {chunk_size iz iy ix : ℕ} {p : ℕ × ℕ × ℕ} :
    p ∈ blockIndices chunk_size iz iy ix ↔
      inBlock chunk_size iz iy ix p.1 p.2.1 p.2.2 := by
  obtain ⟨z, y, x⟩ := p
  simp only [blockIndices, List.mem_flatMap, List.mem_map, List.mem_range,
    inBlock, Prod.mk.injEq]
  constructor
  · rintro ⟨dz, hdz, dy, hdy, dx, hdx, h1, h2, h3⟩
    omega
  · rintro ⟨h1, h2, h3, h4, h5, h6⟩
    exact ⟨z - iz * chunk_size, by omega,
      y - iy * chunk_size, by omega,
      x - ix * chunk_size, by omega, by omega, by omega, by omega⟩

lemma mem_blockValues {v : Volume} {chunk_size iz iy ix : ℕ} {r : ℝ} :
    r ∈ blockValues v chunk_size iz iy ix ↔
      ∃ z y x, inBlock chunk_size iz iy ix z y x ∧ r = padData v z y x := by
  simp only [blockValues, List.mem_map]
  constructor
  · rintro ⟨p, hp, rfl⟩
    exact ⟨p.1, p.2.1, p.2.2, mem_blockIndices.1 hp, rfl⟩
  · rintro ⟨z, y, x, hin, rfl⟩
    exact ⟨(z, y, x), mem_blockIndices.2 hin, rfl⟩

lemma blockValues_ne_nil {v : Volume} {chunk_size iz iy ix : ℕ}
    (hC : 0 < chunk_size) : blockValues v chunk_size iz iy ix ≠ [] := by
  have hmem : padData v (iz * chunk_size) (iy * chunk_size) (ix * chunk_size) ∈
      blockValues v chunk_size iz iy ix := by
    exact mem_blockValues.2 ⟨iz * chunk_size, iy * chunk_size, ix * chunk_size,
      ⟨le_refl _, by omega, le_refl _, by omega, le_refl _, by omega⟩, rfl⟩
  exact List.ne_nil_of_mem hmem

lemma chunkMin_spec {v : Volume} {chunk_size iz iy ix : ℕ}
    (hC : 0 < chunk_size) :
    chunkMin v chunk_size iz iy ix ∈ blockValues v chunk_size iz iy ix ∧
      ∀ r ∈ blockValues v chunk_size iz iy ix,
        chunkMin v chunk_size iz iy ix ≤ r := by
  obtain ⟨a, l, hal⟩ :=
    List.exists_cons_of_ne_nil (@blockValues_ne_nil v chunk_size iz iy ix hC)
  have hdef : chunkMin v chunk_size iz iy ix = l.foldl min a := by
    simp only [chunkMin, hal]
  constructor
  · rw [hdef, hal]; exact foldl_min_mem a l
  · intro r hr
    rw [hdef]
    exact foldl_min_le a l r (hal ▸ hr)

lemma chunkMax_spec {v : Volume} {chunk_size iz iy ix : ℕ}
    (hC : 0 < chunk_size) :
    chunkMax v chunk_size iz iy ix ∈ blockValues v chunk_size iz iy ix ∧
      ∀ r ∈ blockValues v chunk_size iz iy ix,
        r ≤ chunkMax v chunk_size iz iy ix := by
  obtain ⟨a, l, hal⟩ :=
    List.exists_cons_of_ne_nil (@blockValues_ne_nil v chunk_size iz iy ix hC)
  have hdef : chunkMax v chunk_size iz iy ix = l.foldl max a := by
    simp only [chunkMax, hal]
  constructor
  · rw [hdef, hal]; exact foldl_max_mem a l
  · intro r hr
    rw [hdef]
    exact le_foldl_max a l r (hal ▸ hr)

lemma div_eq_iff_between {z i chunk_size : ℕ} (hC : 0 < chunk_size) :
    z / chunk_size = i ↔
      i * chunk_size ≤ z ∧ z < i * chunk_size + chunk_size := by
  constructor
  · rintro rfl
    refine ⟨Nat.div_mul_le_self z chunk_size, ?_⟩
    have h2 : z < (z / chunk_size + 1) * chunk_size :=
      (Nat.div_lt_iff_lt_mul hC).1 (Nat.lt_succ_self _)
    calc z < (z / chunk_size + 1) * chunk_size := h2
      _ = z / chunk_size * chunk_size + chunk_size := by ring
  · rintro ⟨h1, h2⟩
    have hle : i ≤ z / chunk_size := (Nat.le_div_iff_mul_le hC).2 h1
    have hlt : z / chunk_size < i + 1 := by
      apply (Nat.div_lt_iff_lt_mul hC).2
      calc z < i * chunk_size + chunk_size := h2
        _ = (i + 1) * chunk_size := by ring
    omega

lemma paddedDim_le_between {dim chunk_size : ℕ} (hC : 0 < chunk_size) :
    dim ≤ paddedDim dim chunk_size ∧
      paddedDim dim chunk_size < dim + chunk_size := by
  unfold paddedDim
  have h1 : (dim + chunk_size - 1) / chunk_size * chunk_size +
      (dim + chunk_size - 1) % chunk_size = dim + chunk_size - 1 := by
    rw [Nat.mul_comm]
    exact Nat.div_add_mod _ _
  have h2 : (dim + chunk_size - 1) % chunk_size < chunk_size :=
    Nat.mod_lt _ hC
  omega

lemma numChunks_eq {dim chunk_size : ℕ} (hC : 0 < chunk_size) :
    numChunks dim chunk_size = (dim + chunk_size - 1) / chunk_size := by
  unfold numChunks paddedDim
  exact Nat.mul_div_cancel _ hC

lemma numChunks_mul {dim chunk_size : ℕ} (hC : 0 < chunk_size) :
    numChunks dim chunk_size * chunk_size = paddedDim dim chunk_size := by
  rw [numChunks_eq hC]
  rfl

lemma paddedDim_of_dvd {dim chunk_size : ℕ} (hC : 0 < chunk_size)
    (hdvd : chunk_size ∣ dim) : paddedDim dim chunk_size = dim := by
  obtain ⟨hle, hlt⟩ := @paddedDim_le_between dim chunk_size hC
  have hdP : chunk_size ∣ paddedDim dim chunk_size := by
    unfold paddedDim
    exact dvd_mul_left _ _
  have hsub : chunk_size ∣ (paddedDim dim chunk_size - dim) :=
    Nat.dvd_sub' hdP hdvd
  have hlt2 : paddedDim dim chunk_size - dim < chunk_size := by omega
  have hz : paddedDim dim chunk_size - dim = 0 :=
    Nat.eq_zero_of_dvd_of_lt hsub hlt2
  omega

lemma div_lt_numChunks {z dim chunk_size : ℕ} (hC : 0 < chunk_size)
    (hz : z < paddedDim dim chunk_size) :
    z / chunk_size < numChunks dim chunk_size := by
  apply (Nat.div_lt_iff_lt_mul hC).2
  rw [numChunks_mul hC]
  exact hz

lemma lt_dim_of_inRange {i z dim chunk_size : ℕ} (hC : 0 < chunk_size)
    (hdvd : chunk_size ∣ dim) (hi : i < numChunks dim chunk_size)
    (hz : z < i * chunk_size + chunk_size) : z < dim := by
  have h1 : (i + 1) * chunk_size ≤ numChunks dim chunk_size * chunk_size :=
    Nat.mul_le_mul_right _ (by omega)
  have h2 := @numChunks_mul dim chunk_size hC
  have h3 := paddedDim_of_dvd hC hdvd
  have h4 : (i + 1) * chunk_size = i * chunk_size + chunk_size :=
    Nat.succ_mul i chunk_size
  omega

lemma peronaMalikStep_uniform {K lambda_param : ℝ} {diffusion_type : ℕ}
    {v : Volume} {c : ℝ} (hv : ∀ z y x, v.data z y x = c) :
    peronaMalikStep K lambda_param diffusion_type v = v := by
  obtain ⟨d, h, w, data⟩ := v
  have hv2 : ∀ z y x, data z y x = c := hv
  simp only [peronaMalikStep]
  congr 1
  funext z y x
  simp only [hv2]
  ring

/-- C6: for every input volume and every parameter set with iterations = 0,
the diffusion solver is a no-op: the output volume equals the input volume,
voxel for voxel. -/
theorem zero_iterations_identity (hasCupy : Bool) (volume : Volume)
    (K lambda_param : ℝ) (diffusion_type : ℕ) :
    perona_malik_gpu hasCupy volume 0 K lambda_param diffusion_type = volume := by
  cases hasCupy <;> simp [perona_malik_gpu]

/-- C10: when the accelerated backend (CuPy) is unavailable, the diffusion
solver returns its input volume entirely unchanged for every input and every
parameter set, including iterations greater than zero. -/
theorem no_backend_identity (volume : Volume) (iterations : ℕ)
    (K lambda_param : ℝ) (diffusion_type : ℕ) :
    perona_malik_gpu false volume iterations K lambda_param diffusion_type =
      volume := by
  simp [perona_malik_gpu]

/-- C3: the ChunkGrid has per-axis shape ceil(dim / C) — characterized both by
the closed form (dim + C - 1) / C and by the covering property that the cell
count times C is the least multiple of C reaching dim — and total cell count
equal to the product of the three per-axis counts. -/
theorem chunk_grid_sizing (v : Volume) (chunk_size : ℕ) (hC : 0 < chunk_size) :
    ((compute_chunk_minmax v chunk_size).nz =
        (v.depth + chunk_size - 1) / chunk_size ∧
      v.depth ≤ (compute_chunk_minmax v chunk_size).nz * chunk_size ∧
      (compute_chunk_minmax v chunk_size).nz * chunk_size <
        v.depth + chunk_size) ∧
    ((compute_chunk_minmax v chunk_size).ny =
        (v.height + chunk_size - 1) / chunk_size ∧
      v.height ≤ (compute_chunk_minmax v chunk_size).ny * chunk_size ∧
      (compute_chunk_minmax v chunk_size).ny * chunk_size <
        v.height + chunk_size) ∧
    ((compute_chunk_minmax v chunk_size).nx =
        (v.width + chunk_size - 1) / chunk_size ∧
      v.width ≤ (compute_chunk_minmax v chunk_size).nx * chunk_size ∧
      (compute_chunk_minmax v chunk_size).nx * chunk_size <
        v.width + chunk_size) ∧
    Fintype.card
        (Fin (compute_chunk_minmax v chunk_size).nz ×
          Fin (compute_chunk_minmax v chunk_size).ny ×
          Fin (compute_chunk_minmax v chunk_size).nx) =
      (compute_chunk_minmax v chunk_size).nz *
        (compute_chunk_minmax v chunk_size).ny *
        (compute_chunk_minmax v chunk_size).nx := by
  have haxis : ∀ dim : ℕ,
      numChunks dim chunk_size = (dim + chunk_size - 1) / chunk_size ∧
      dim ≤ numChunks dim chunk_size * chunk_size ∧
      numChunks dim chunk_size * chunk_size < dim + chunk_size := by
    intro dim
    refine ⟨numChunks_eq hC, ?_, ?_⟩ <;> rw [numChunks_mul hC]
    · exact (paddedDim_le_between hC).1
    · exact (paddedDim_le_between hC).2
  refine ⟨haxis v.depth, haxis v.height, haxis v.width, ?_⟩
  simp [Fintype.card_prod, Nat.mul_assoc]

/-- A concrete 48x48x48 volume witnessing the chunk-grid sizing claim. -/
noncomputable def volC3 : Volume := ⟨48, 48, 48, fun _ _ _ => 0⟩

/-- Witness for C3: with dimensions 48x48x48 and chunk edge 16, the grid is
3x3x3 with 27 cells. -/
theorem chunk_grid_sizing_witness :
    ((compute_chunk_minmax volC3 16).nz = 3 ∧
      48 ≤ (compute_chunk_minmax volC3 16).nz * 16 ∧
      (compute_chunk_minmax volC3 16).nz * 16 < 48 + 16) ∧
    ((compute_chunk_minmax volC3 16).ny = 3 ∧
      48 ≤ (compute_chunk_minmax volC3 16).ny * 16 ∧
      (compute_chunk_minmax volC3 16).ny * 16 < 48 + 16) ∧
    ((compute_chunk_minmax volC3 16).nx = 3 ∧
      48 ≤ (compute_chunk_minmax volC3 16).nx * 16 ∧
      (compute_chunk_minmax volC3 16).nx * 16 < 48 + 16) ∧
    Fintype.card
        (Fin (compute_chunk_minmax volC3 16).nz ×
          Fin (compute_chunk_minmax volC3 16).ny ×
          Fin (compute_chunk_minmax volC3 16).nx) = 27 :=
  chunk_grid_sizing volC3 16 (by decide)

/-- C7: chunk sizes that are not multiples of 16 or outside 16..256 are
rejected with an error and no output; chunk sizes that are multiples of 16
within 16..256 pass validation and the conversion produces an output. -/
theorem chunk_size_validation (hasCupy apply_smoothing : Bool) (v : Volume)
    (smoothing_iterations chunk_size : ℕ) :
    ((chunk_size % 16 = 0 ∧ 16 ≤ chunk_size ∧ chunk_size ≤ 256) →
      ∃ out, convert_dicom_series hasCupy apply_smoothing v
        smoothing_iterations chunk_size = Except.ok out) ∧
    (¬(chunk_size % 16 = 0 ∧ 16 ≤ chunk_size ∧ chunk_size ≤ 256) →
      ∃ msg, convert_dicom_series hasCupy apply_smoothing v
        smoothing_iterations chunk_size = Except.error msg) := by
  constructor
  · rintro ⟨h1, h2, h3⟩
    have h1n : ¬(chunk_size % 16 ≠ 0) := by omega
    have h2n : ¬(chunk_size < 16 ∨ chunk_size > 256) := by omega
    simp only [convert_dicom_series, if_neg h1n, if_neg h2n]
    exact ⟨_, rfl⟩
  · intro h
    simp only [convert_dicom_series]
    by_cases h1 : chunk_size % 16 ≠ 0
    · rw [if_pos h1]
      exact ⟨_, rfl⟩
    · rw [if_neg h1]
      have h2 : chunk_size < 16 ∨ chunk_size > 256 := by omega
      rw [if_pos h2]
      exact ⟨_, rfl⟩

/-- A concrete volume used to witness chunk-size validation. -/
noncomputable def volC7 : Volume := ⟨4, 4, 4, fun _ _ _ => 0⟩

/-- Witness for C7: chunk size 32 passes validation and produces an output;
chunk size 20 (not a multiple of 16) is rejected with an error. -/
theorem chunk_size_validation_witness :
    (∃ out, convert_dicom_series false false volC7 1 32 = Except.ok out) ∧
    (∃ msg, convert_dicom_series false false volC7 1 20 = Except.error msg) :=
  ⟨(chunk_size_validation false false volC7 1 32).1 (by decide),
   (chunk_size_validation false false volC7 1 20).2 (by decide)⟩

/-- C2: each cell of the ChunkGrid stores exactly the minimum and maximum of
the voxel values of its cubic block of the zero-padded volume (the stored min
is a block value and a lower bound of all block values, dually for the max;
block values are exactly the padded-volume values at the block's voxels), and
every voxel of the padded volume lies in the block of exactly one cell (the
cubes are non-overlapping and cover the padded volume). -/
theorem chunk_extrema_exact (v : Volume) (chunk_size iz iy ix : ℕ)
    (hC : 0 < chunk_size)
    (hiz : iz < (compute_chunk_minmax v chunk_size).nz)
    (hiy : iy < (compute_chunk_minmax v chunk_size).ny)
    (hix : ix < (compute_chunk_minmax v chunk_size).nx) :
    ((compute_chunk_minmax v chunk_size).cmin iz iy ix ∈
        blockValues v chunk_size iz iy ix ∧
      ∀ r ∈ blockValues v chunk_size iz iy ix,
        (compute_chunk_minmax v chunk_size).cmin iz iy ix ≤ r) ∧
    ((compute_chunk_minmax v chunk_size).cmax iz iy ix ∈
        blockValues v chunk_size iz iy ix ∧
      ∀ r ∈ blockValues v chunk_size iz iy ix,
        r ≤ (compute_chunk_minmax v chunk_size).cmax iz iy ix) ∧
    (∀ r : ℝ, r ∈ blockValues v chunk_size iz iy ix ↔
      ∃ z y x, inBlock chunk_size iz iy ix z y x ∧ r = padData v z y x) ∧
    (∀ z y x, z < paddedDim v.depth chunk_size →
      y < paddedDim v.height chunk_size → x < paddedDim v.width chunk_size →
      ∃! q : ℕ × ℕ × ℕ,
        (q.1 < (compute_chunk_minmax v chunk_size).nz ∧
          q.2.1 < (compute_chunk_minmax v chunk_size).ny ∧
          q.2.2 < (compute_chunk_minmax v chunk_size).nx) ∧
        inBlock chunk_size q.1 q.2.1 q.2.2 z y x) := by
  refine ⟨?_, ?_, ?_, ?_⟩
  · simpa only [compute_chunk_minmax] using
      @chunkMin_spec v chunk_size iz iy ix hC
  · simpa only [compute_chunk_minmax] using
      @chunkMax_spec v chunk_size iz iy ix hC
  · intro r
    exact mem_blockValues
  · intro z y x hz hy hx
    refine ⟨(z / chunk_size, y / chunk_size, x / chunk_size),
      ⟨⟨?_, ?_, ?_⟩, ?_⟩, ?_⟩
    · simpa only [compute_chunk_minmax] using div_lt_numChunks hC hz
    · simpa only [compute_chunk_minmax] using div_lt_numChunks hC hy
    · simpa only [compute_chunk_minmax] using div_lt_numChunks hC hx
    · obtain ⟨hz1, hz2⟩ := (div_eq_iff_between hC).1 (rfl : z / chunk_size = _)
      obtain ⟨hy1, hy2⟩ := (div_eq_iff_between hC).1 (rfl : y / chunk_size = _)
      obtain ⟨hx1, hx2⟩ := (div_eq_iff_between hC).1 (rfl : x / chunk_size = _)
      exact ⟨hz1, hz2, hy1, hy2, hx1, hx2⟩
    · rintro ⟨a, b, d⟩ ⟨-, hin⟩
      obtain ⟨ha1, ha2, hb1, hb2, hd1, hd2⟩ := hin
      have haz : z / chunk_size = a := (div_eq_iff_between hC).2 ⟨ha1, ha2⟩
      have hby : y / chunk_size = b := (div_eq_iff_between hC).2 ⟨hb1, hb2⟩
      have hdx : x / chunk_size = d := (div_eq_iff_between hC).2 ⟨hd1, hd2⟩
      simp [haz, hby, hdx]

/-- A concrete 1x1x1 volume witnessing the chunk-extrema claim: with chunk
edge 16 it is padded to a single 16x16x16 block. -/
noncomputable def volC2 : Volume := ⟨1, 1, 1, fun _ _ _ => 5⟩

/-- Witness for C2 at the single cell (0,0,0) of the padded 1x1x1 volume with
chunk edge 16. -/
theorem chunk_extrema_exact_witness :
    (((compute_chunk_minmax volC2 16).cmin 0 0 0 ∈ blockValues volC2 16 0 0 0 ∧
      ∀ r ∈ blockValues volC2 16 0 0 0,
        (compute_chunk_minmax volC2 16).cmin 0 0 0 ≤ r) ∧
    ((compute_chunk_minmax volC2 16).cmax 0 0 0 ∈ blockValues volC2 16 0 0 0 ∧
      ∀ r ∈ blockValues volC2 16 0 0 0,
        r ≤ (compute_chunk_minmax volC2 16).cmax 0 0 0) ∧
    (∀ r : ℝ, r ∈ blockValues volC2 16 0 0 0 ↔
      ∃ z y x, inBlock 16 0 0 0 z y x ∧ r = padData volC2 z y x) ∧
    (∀ z y x, z < paddedDim volC2.depth 16 → y < paddedDim volC2.height 16 →
      x < paddedDim volC2.width 16 →
      ∃! q : ℕ × ℕ × ℕ,
        (q.1 < (compute_chunk_minmax volC2 16).nz ∧
          q.2.1 < (compute_chunk_minmax volC2 16).ny ∧
          q.2.2 < (compute_chunk_minmax volC2 16).nx) ∧
        inBlock 16 q.1 q.2.1 q.2.2 z y x)) :=
  chunk_extrema_exact volC2 16 0 0 0 (by decide) (by decide) (by decide)
    (by decide)

/-- C4: padding extends the volume with fill value zero (outside the original
extent every padded value is 0), and a cell whose cube lies entirely inside
the original extent has extrema depending only on original voxel values: any
volume agreeing with v on the original extent yields the same extrema there. -/
theorem padding_boundary_only (v vp : Volume) (chunk_size iz iy ix : ℕ)
    (hC : 0 < chunk_size)
    (hdep : vp.depth = v.depth) (hhei : vp.height = v.height)
    (hwid : vp.width = v.width)
    (hagree : ∀ z y x, z < v.depth → y < v.height → x < v.width →
      vp.data z y x = v.data z y x)
    (hbz : (iz + 1) * chunk_size ≤ v.depth)
    (hby : (iy + 1) * chunk_size ≤ v.height)
    (hbx : (ix + 1) * chunk_size ≤ v.width) :
    (∀ z y x, ¬(z < v.depth ∧ y < v.height ∧ x < v.width) →
      padData v z y x = 0) ∧
    (compute_chunk_minmax vp chunk_size).cmin iz iy ix =
      (compute_chunk_minmax v chunk_size).cmin iz iy ix ∧
    (compute_chunk_minmax vp chunk_size).cmax iz iy ix =
      (compute_chunk_minmax v chunk_size).cmax iz iy ix := by
  have hbv : blockValues vp chunk_size iz iy ix =
      blockValues v chunk_size iz iy ix := by
    unfold blockValues
    apply List.map_congr_left
    intro p hp
    have hin := mem_blockIndices.1 hp
    obtain ⟨h1, h2, h3, h4, h5, h6⟩ := hin
    have hsz : (iz + 1) * chunk_size = iz * chunk_size + chunk_size := by ring
    have hsy : (iy + 1) * chunk_size = iy * chunk_size + chunk_size := by ring
    have hsx : (ix + 1) * chunk_size = ix * chunk_size + chunk_size := by ring
    have hz : p.1 < v.depth := by omega
    have hy : p.2.1 < v.height := by omega
    have hx : p.2.2 < v.width := by omega
    unfold padData
    rw [if_pos ⟨hdep ▸ hz, hhei ▸ hy, hwid ▸ hx⟩, if_pos ⟨hz, hy, hx⟩]
    exact hagree _ _ _ hz hy hx
  refine ⟨?_, ?_, ?_⟩
  · intro z y x hn
    simp only [padData, if_neg hn]
  · simp only [compute_chunk_minmax]
    unfold chunkMin
    rw [hbv]
  · simp only [compute_chunk_minmax]
    unfold chunkMax
    rw [hbv]

/-- Interior 16x16x16 volume witnessing C4. -/
noncomputable def volC4 : Volume := ⟨16, 16, 16, fun _ _ _ => 1⟩

/-- A volume agreeing with volC4 inside the extent but different outside. -/
noncomputable def volC4b : Volume :=
  ⟨16, 16, 16, fun z y x => if z < 16 ∧ y < 16 ∧ x < 16 then 1 else 99⟩

/-- Witness for C4: the interior cell (0,0,0) of a 16-cube volume has the same
extrema under any out-of-extent modification of the data. -/
theorem padding_boundary_only_witness :
    ((∀ z y x, ¬(z < volC4.depth ∧ y < volC4.height ∧ x < volC4.width) →
      padData volC4 z y x = 0) ∧
    (compute_chunk_minmax volC4b 16).cmin 0 0 0 =
      (compute_chunk_minmax volC4 16).cmin 0 0 0 ∧
    (compute_chunk_minmax volC4b 16).cmax 0 0 0 =
      (compute_chunk_minmax volC4 16).cmax 0 0 0) :=
  padding_boundary_only volC4 volC4b 16 0 0 0 (by decide) rfl rfl rfl
    (by
      intro z y x hz hy hx
      simp only [volC4b, volC4]
      rw [if_pos ⟨hz, hy, hx⟩])
    (by decide) (by decide) (by decide)

/-- C5: a uniform volume is a fixed point of the diffusion solver for every
parameter set (any iteration count, any K greater than 0, any lambda, either
coefficient variant), and every cell of its ChunkGrid (for a chunk edge
dividing the dimensions, so no padding occurs) stores (c, c). -/
theorem uniform_fixed_point (v : Volume) (c : ℝ)
    (hv : ∀ z y x, v.data z y x = c)
    (iterations : ℕ) (K lambda_param : ℝ) (hK : 0 < K) (diffusion_type : ℕ)
    (chunk_size iz iy ix : ℕ) (hC : 0 < chunk_size)
    (hdz : chunk_size ∣ v.depth) (hdy : chunk_size ∣ v.height)
    (hdx : chunk_size ∣ v.width)
    (hiz : iz < (compute_chunk_minmax v chunk_size).nz)
    (hiy : iy < (compute_chunk_minmax v chunk_size).ny)
    (hix : ix < (compute_chunk_minmax v chunk_size).nx) :
    perona_malik_gpu true v iterations K lambda_param diffusion_type = v ∧
    (compute_chunk_minmax
        (perona_malik_gpu true v iterations K lambda_param diffusion_type)
        chunk_size).cmin iz iy ix = c ∧
    (compute_chunk_minmax
        (perona_malik_gpu true v iterations K lambda_param diffusion_type)
        chunk_size).cmax iz iy ix = c := by
  have hfix : perona_malik_gpu true v iterations K lambda_param
      diffusion_type = v := by
    simp only [perona_malik_gpu]
    rw [if_neg (by simp)]
    exact Function.iterate_fixed (peronaMalikStep_uniform hv) iterations
  have hall : ∀ r ∈ blockValues v chunk_size iz iy ix, r = c := by
    intro r hr
    obtain ⟨z, y, x, hin, rfl⟩ := mem_blockValues.1 hr
    obtain ⟨h1, h2, h3, h4, h5, h6⟩ := hin
    have hz : z < v.depth :=
      lt_dim_of_inRange hC hdz
        (by simpa only [compute_chunk_minmax] using hiz) h2
    have hy : y < v.height :=
      lt_dim_of_inRange hC hdy
        (by simpa only [compute_chunk_minmax] using hiy) h4
    have hx : x < v.width :=
      lt_dim_of_inRange hC hdx
        (by simpa only [compute_chunk_minmax] using hix) h6
    simp [padData, hz, hy, hx, hv]
  refine ⟨hfix, ?_, ?_⟩ <;> rw [hfix]
  · simp only [compute_chunk_minmax]
    exact hall _ (@chunkMin_spec v chunk_size iz iy ix hC).1
  · simp only [compute_chunk_minmax]
    exact hall _ (@chunkMax_spec v chunk_size iz iy ix hC).1

/-- The 32x32x32 volume uniformly filled with 100 of the end-to-end
scenario. -/
noncomputable def volC5 : Volume := ⟨32, 32, 32, fun _ _ _ => 100⟩

/-- Witness for C5: the end-to-end scenario of the claim: the uniform 100
volume with iterations 3, K 50, lambda 0.1, rational variant is unchanged,
and its single-cell ChunkGrid with chunk edge 32 stores (100, 100). -/
theorem uniform_fixed_point_witness :
    perona_malik_gpu true volC5 3 50 (1 / 10) 2 = volC5 ∧
    (compute_chunk_minmax (perona_malik_gpu true volC5 3 50 (1 / 10) 2)
      32).cmin 0 0 0 = 100 ∧
    (compute_chunk_minmax (perona_malik_gpu true volC5 3 50 (1 / 10) 2)
      32).cmax 0 0 0 = 100 :=
  uniform_fixed_point volC5 100 (fun _ _ _ => rfl) 3 50 (1 / 10)
    (by norm_num) 2 32 0 0 0 (by decide) (dvd_refl 32) (dvd_refl 32)
    (dvd_refl 32) (by decide) (by decide) (by decide)

/-- C8: for finite g at least 0 and K greater than 0, both coefficient
formulas take values in the half-open interval (0, 1], equal 1 exactly at
g = 0, and are strictly decreasing in g on the nonnegative axis. -/
theorem coefficient_range (K g g1 g2 : ℝ) (hK : 0 < K) (hg : 0 ≤ g)
    (hg1 : 0 ≤ g1) (h12 : g1 < g2) :
    (0 < diffusionCoef 1 K g ∧ diffusionCoef 1 K g ≤ 1) ∧
    (diffusionCoef 1 K g = 1 ↔ g = 0) ∧
    (0 < diffusionCoef 2 K g ∧ diffusionCoef 2 K g ≤ 1) ∧
    (diffusionCoef 2 K g = 1 ↔ g = 0) ∧
    diffusionCoef 1 K g2 < diffusionCoef 1 K g1 ∧
    diffusionCoef 2 K g2 < diffusionCoef 2 K g1 := by
  have hKne : K ≠ 0 := ne_of_gt hK
  have hcoef1 : ∀ a : ℝ, diffusionCoef 1 K a = Real.exp (-((a / K) ^ 2)) := by
    intro a; simp [diffusionCoef]
  have hcoef2 : ∀ a : ℝ, diffusionCoef 2 K a = 1 / (1 + (a / K) ^ 2) := by
    intro a; simp [diffusionCoef]
  have hsq : ∀ a : ℝ, (0:ℝ) ≤ (a / K) ^ 2 := fun a => sq_nonneg _
  have hlt : (g1 / K) ^ 2 < (g2 / K) ^ 2 := by
    have hdiv : g1 / K < g2 / K := (div_lt_div_iff_of_pos_right hK).2 h12
    have hnn : 0 ≤ g1 / K := div_nonneg hg1 (le_of_lt hK)
    exact pow_lt_pow_left₀ hdiv hnn two_ne_zero
  refine ⟨⟨?_, ?_⟩, ?_, ⟨?_, ?_⟩, ?_, ?_, ?_⟩
  · rw [hcoef1]
    exact Real.exp_pos _
  · rw [hcoef1]
    calc Real.exp (-((g / K) ^ 2)) ≤ Real.exp 0 :=
          Real.exp_le_exp.2 (by linarith [hsq g])
      _ = 1 := Real.exp_zero
  · rw [hcoef1, Real.exp_eq_one_iff]
    constructor
    · intro h
      have h2 : (g / K) ^ 2 = 0 := by linarith [hsq g]
      have h3 : g / K = 0 := (pow_eq_zero_iff two_ne_zero).1 h2
      rcases div_eq_zero_iff.1 h3 with h4 | h4
      · exact h4
      · exact absurd h4 hKne
    · rintro rfl
      simp
  · rw [hcoef2]
    exact div_pos one_pos (by linarith [hsq g])
  · rw [hcoef2, div_le_one (by linarith [hsq g])]
    linarith [hsq g]
  · rw [hcoef2]
    constructor
    · intro h
      have hpos : (0:ℝ) < 1 + (g / K) ^ 2 := by linarith [hsq g]
      rw [div_eq_one_iff_eq (ne_of_gt hpos)] at h
      have h2 : (g / K) ^ 2 = 0 := by linarith
      have h3 : g / K = 0 := (pow_eq_zero_iff two_ne_zero).1 h2
      rcases div_eq_zero_iff.1 h3 with h4 | h4
      · exact h4
      · exact absurd h4 hKne
    · rintro rfl
      simp
  · rw [hcoef1, hcoef1]
    exact Real.exp_lt_exp.2 (by linarith)
  · rw [hcoef2, hcoef2]
    exact one_div_lt_one_div_of_lt (by linarith [hsq g1]) (by linarith)

/-- Witness for C8 at K = 1, g = 0, and the strictly-decreasing pair
g1 = 0, g2 = 1. -/
theorem coefficient_range_witness :
    (0 < diffusionCoef 1 1 0 ∧ diffusionCoef 1 1 0 ≤ 1) ∧
    (diffusionCoef 1 1 0 = 1 ↔ (0:ℝ) = 0) ∧
    (0 < diffusionCoef 2 1 0 ∧ diffusionCoef 2 1 0 ≤ 1) ∧
    (diffusionCoef 2 1 0 = 1 ↔ (0:ℝ) = 0) ∧
    diffusionCoef 1 1 1 < diffusionCoef 1 1 0 ∧
    diffusionCoef 2 1 1 < diffusionCoef 2 1 0 :=
  coefficient_range 1 0 0 1 (by norm_num) le_rfl le_rfl (by norm_num)

/-- C1 (amended): when the accelerated backend is unavailable and smoothing is
requested, perona_malik_gpu returns the input volume unchanged and the
conversion produces outputs identical to a run with smoothing disabled; the
only degradation report is a console message, and no status flag in the
returned value or in the metadata fields records whether smoothing was
applied. -/
theorem smoothing_degraded_no_flag (volume : Volume)
    (smoothing_iterations chunk_size iterations : ℕ)
    (K lambda_param : ℝ) (diffusion_type : ℕ) :
    perona_malik_gpu false volume iterations K lambda_param diffusion_type =
      volume ∧
    convert_dicom_series false true volume smoothing_iterations chunk_size =
      convert_dicom_series false false volume smoothing_iterations
        chunk_size := by
  constructor
  · simp [perona_malik_gpu]
  · rfl

/-- The 1x1x2 volume with voxel values 0 and 1 along x, used to exhibit the
silent degraded path of the solver. -/
noncomputable def volC1 : Volume :=
  ⟨1, 1, 2, fun _ _ x => if x = 0 then 0 else 1⟩

/-- Counterexample for C1 as stated: with the backend available one smoothing
iteration changes volC1, but with the backend unavailable the solver returns
exactly the input volume and the conversion outputs with smoothing requested
equal those with smoothing disabled — an unsmoothed result is silently
substituted for a smoothed one, with no status flag in any output. -/
theorem smoothing_degraded_counterexample :
    perona_malik_gpu false volC1 1 1 (1 / 10) 2 = volC1 ∧
    perona_malik_gpu true volC1 1 1 (1 / 10) 2 ≠ volC1 ∧
    convert_dicom_series false true volC1 1 16 =
      convert_dicom_series false false volC1 1 16 := by
  refine ⟨by simp [perona_malik_gpu], ?_, rfl⟩
  intro h
  have hd : (perona_malik_gpu true volC1 1 1 (1 / 10) 2).data 0 0 0 =
      volC1.data 0 0 0 := by rw [h]
  simp only [perona_malik_gpu, if_neg (by simp : ¬(true = false)),
    Function.iterate_one, peronaMalikStep, volC1] at hd
  norm_num [diffusionCoef] at hd
